import Mathlib

/-!
Shallow embedding of the curve-matching core of `Task_1/mapping.py`
(classes `FunctionSelection` and `TestDataMapper`).

Modelling conventions:
* Numeric values are rationals (`ℚ`); Python's `float('inf')` sentinel is `⊤`
  in `WithTop ℚ`.  Binary floating point is abstracted to exact arithmetic.
* A pandas DataFrame holding curves is a `Table`: the `x` ordinate column plus
  the named `y*` value columns in column order.
* Python dict assignment on `selected_functions` is an association-list update
  (insertion order matters because its values are enumerated later); the
  `max_deviation` dict is only ever looked up by key, so it is modelled
  extensionally as `String → Option ℚ`.
* Exceptions (`ZeroDivisionError`, `KeyError`, numpy shape errors) are
  modelled by `Option`/a `Bool` success flag; a `try/except` that converts an
  exception into a `None` return becomes a `none` result.
* The comparison `deviation <= sqrt(2) * max_deviation` is embedded as the
  rational predicate `devWithin` (`0 ≤ m ∧ d^2 ≤ 2*m^2`), which theorem
  `devWithin_iff_real` proves equivalent over `ℝ` for the nonnegative
  deviations the code produces.
-/

/-- A named value column of a curve table (`y1`, `y2`, ...). -/
abbrev Col := String × List ℚ

/-- A curve table: the shared ordinate column `x` plus named value columns in
column order, as loaded into a DataFrame. -/
structure Table where
  x : List ℚ
  cols : List Col
deriving DecidableEq, Repr

/-- Sum of squared errors `np.sum((y_train - y_ideal) ** 2)` between two
row-aligned columns (`mapping.py` line 117; only evaluated on equal-length
columns, which the caller guarantees). -/
def sse (a b : List ℚ) : ℚ :=
  ((a.zip b).map fun p => (p.1 - p.2) ^ 2).sum

/-- Round-half-even to an integer, the tie rule of Python's `round`. -/
def roundHalfEven (q : ℚ) : ℤ :=
  let f := ⌊q⌋
  let r := q - (f : ℚ)
  if r < 1 / 2 then f
  else if 1 / 2 < r then f + 1
  else if f % 2 = 0 then f else f + 1

/-- Python's `round(q, 4)`: round to four decimal places, ties to even.
(Binary-float representation effects of the real `round` are abstracted.) -/
def round4 (q : ℚ) : ℚ :=
  (roundHalfEven (q * 10000) : ℚ) / 10000

/-- Embedding of `round(min_sse / len(y_train), 4)` (`mapping.py` line 124): a finite
running SSE is divided by the column length and rounded; the `float('inf')`
sentinel stays infinite (`round(inf, 4)` is `inf`). -/
def divRound4 (m : WithTop ℚ) (n : ℕ) : WithTop ℚ :=
  m.map fun q => round4 (q / (n : ℚ))

/-- The inner loop of `find_best_fit` (`mapping.py` lines 109-122): scan the
ideal columns in order, skip those whose length differs from the training
column's, and keep the first column strictly improving the running minimal
SSE.  The accumulator is `(best_match, min_sse)` with `min_sse = ⊤` playing
`float('inf')`. -/
def bestLoop (yTrain : List ℚ) (acc : Option String × WithTop ℚ) :
    List Col → Option String × WithTop ℚ
  | [] => acc
  | c :: rest =>
    if yTrain.length = c.2.length then
      let s := sse yTrain c.2
      if (s : WithTop ℚ) < acc.2 then bestLoop yTrain (some c.1, (s : WithTop ℚ)) rest
      else bestLoop yTrain acc rest
    else bestLoop yTrain acc rest

/-- Selection of the best ideal column for one training column, starting from
`best_match = None`, `min_sse = float('inf')` (`mapping.py` lines 106-107). -/
def bestMatchFor (yTrain : List ℚ) (cols : List Col) : Option String × WithTop ℚ :=
  bestLoop yTrain (none, ⊤) cols

/-- One entry of the `best_fits` dict: the training column name bound to
`(best_match, round(min_sse / len(y_train), 4))` (`mapping.py` line 124). -/
def entryFor (idealCols : List Col) (tc : Col) : String × (Option String × WithTop ℚ) :=
  let r := bestMatchFor tc.2 idealCols
  (tc.1, (r.1, divRound4 r.2 tc.2.length))

/-- An item of the `best_fits` dict: training column name, best ideal column
name (or `None`), recorded error value (`float('inf')` possible). -/
abbrev Entry := String × (Option String × WithTop ℚ)

/-- The sort key of `sorted(best_fits.items(), key=lambda x: x[1][1])`. -/
def entryLE (a b : Entry) : Prop := a.2.2 ≤ b.2.2

instance : DecidableRel entryLE := fun a b =>
  inferInstanceAs (Decidable (a.2.2 ≤ b.2.2))

instance : IsTotal Entry entryLE := ⟨fun a b => le_total a.2.2 b.2.2⟩

instance : IsTrans Entry entryLE := ⟨fun _ _ _ h h' => le_trans h h'⟩

/-- Embedding of `FunctionSelection.find_best_fit` (`mapping.py` lines 101-137).  For each
training column (in column order) it records the first ideal column attaining
the minimal SSE together with the rounded MSE, then stable-sorts the entries
by recorded error and keeps the first four.  A training column with no rows
makes line 124 (or line 118) raise `ZeroDivisionError`, which the enclosing
`try` converts into a `None` return, modelled as `none`.  (Python's `sorted`
is stable; `List.insertionSort` is the stable sort on lists.) -/
def findBestFit (train ideal : Table) : Option (List Entry) :=
  if train.cols.any fun c => c.2.isEmpty then none
  else some ((List.insertionSort entryLE (train.cols.map (entryFor ideal.cols))).take 4)

/-- The ideal columns whose length matches the training column's: the
candidates not skipped by the shape check of `mapping.py` line 112. -/
def matchingCols (yTrain : List ℚ) (cols : List Col) : List Col :=
  cols.filter fun c => yTrain.length = c.2.length

/-- Modelled from the spec's words (§4.1): among the matching-length ideal
curves, select the one with globally minimal SSE, ties resolved by the first
ideal curve encountered in table column order; with no matching candidate the
result is `(None, +infinity)`. -/
def specSelect (yTrain : List ℚ) (cols : List Col) : Option String × WithTop ℚ :=
  match (matchingCols yTrain cols).find?
      (fun c => decide (∀ d ∈ matchingCols yTrain cols, sse yTrain c.2 ≤ sse yTrain d.2)) with
  | none => (none, ⊤)
  | some c => (some c.1, (sse yTrain c.2 : WithTop ℚ))

/-! ### A generic view of the two first-strict-minimum scans

Both the ideal-column scan of `find_best_fit` and the candidate scan of
`map_test_data` walk a list, where each element optionally contributes a
tagged rational value, and replace the running `(best, min)` accumulator
exactly when the contributed value strictly improves the minimum.  We
characterise this scan once. -/

/-- The common loop shape: each element `a` contributes `val a`, and a
contribution replaces the accumulator iff it is strictly below the running
minimum. -/
def scanMinLoop {α β : Type} (val : α → Option (β × ℚ)) :
    List α → Option β × WithTop ℚ → Option β × WithTop ℚ
  | [], acc => acc
  | a :: rest, acc =>
    match val a with
    | none => scanMinLoop val rest acc
    | some p =>
      if (p.2 : WithTop ℚ) < acc.2 then scanMinLoop val rest (some p.1, (p.2 : WithTop ℚ))
      else scanMinLoop val rest acc

/-- Asserts that `v` is below the value contributed by `o` (vacuously when `o` contributes
nothing). -/
def leOpt {β : Type} (v : ℚ) : Option (β × ℚ) → Prop
  | none => True
  | some p => v ≤ p.2

instance {β : Type} (v : ℚ) (o : Option (β × ℚ)) : Decidable (leOpt v o) :=
  match o with
  | none => isTrue trivial
  | some p => inferInstanceAs (Decidable (v ≤ p.2))

/-- Asserts that `a` is a winning element of the scan over `l` started at minimum `m₀`:
it contributes a value strictly below `m₀` that is a global minimum of the
contributed values. -/
def isScanMin {α β : Type} (val : α → Option (β × ℚ)) (l : List α) (m₀ : WithTop ℚ)
    (a : α) : Prop :=
  ∃ p, val a = some p ∧ (p.2 : WithTop ℚ) < m₀ ∧ ∀ a' ∈ l, leOpt p.2 (val a')

instance {α β : Type} (val : α → Option (β × ℚ)) (l : List α) (m₀ : WithTop ℚ)
    (a : α) : Decidable (isScanMin val l m₀ a) :=
  match h : val a with
  | none => isFalse fun ⟨p, hp, _⟩ => by rw [h] at hp; exact Option.noConfusion hp
  | some p =>
    decidable_of_iff ((p.2 : WithTop ℚ) < m₀ ∧ ∀ a' ∈ l, leOpt p.2 (val a'))
      ⟨fun hc => ⟨p, h, hc⟩, fun ⟨q, hq, hc⟩ => by
        rw [h] at hq; cases hq; exact hc⟩

/-- The result of the whole scan as the specification presents it: the first
winning element (if any) replaces the initial accumulator. -/
def scanMinResult {α β : Type} (val : α → Option (β × ℚ)) (l : List α)
    (acc : Option β × WithTop ℚ) : Option β × WithTop ℚ :=
  match l.find? fun a => decide (isScanMin val l acc.2 a) with
  | none => acc
  | some a =>
    match val a with
    | none => acc
    | some p => (some p.1, (p.2 : WithTop ℚ))

/-- The contribution of an ideal column to the selection scan for a given
training column: skipped unless the lengths agree, otherwise its SSE. -/
def valSel (yTrain : List ℚ) (c : Col) : Option (String × ℚ) :=
  if yTrain.length = c.2.length then some (c.1, sse yTrain c.2) else none

/-! ### The mapper state (`TestDataMapper`) -/

/-- The in-memory state of a `TestDataMapper` object: the three loaded tables
(test points are the `(x, y)` rows of the test table) plus the two dicts
initialised empty in `__init__`.  `selected_functions` keeps dict insertion
order because `map_test_data` enumerates its values; `max_deviation` is only
ever looked up by key, so it is modelled extensionally. -/
structure SysState where
  train : Table
  ideal : Table
  test : List (ℚ × ℚ)
  selected : List (String × Option String)
  maxDev : String → Option ℚ

/-- Column lookup `df[name]`; `none` models the `KeyError` raised when no
such column exists. -/
def lookupCol (cols : List Col) (name : String) : Option (List ℚ) :=
  (cols.find? fun c => c.1 = name).map (·.2)

/-- Pointwise `np.abs(a - b)` with numpy's length-1 broadcasting; `none`
models the shape error raised on other length mismatches. -/
def absDiffs : List ℚ → List ℚ → Option (List ℚ)
  | a, b =>
    if a.length = b.length then some ((a.zip b).map fun p => |p.1 - p.2|)
    else
      match a, b with
      | a, [w] => some (a.map fun v => |v - w|)
      | [v], b => some (b.map fun w => |v - w|)
      | _, _ => none

/-- Assignment `self.max_deviation[k] = v` on the extensional dict model. -/
def updF (g : String → Option ℚ) (k : String) (v : ℚ) : String → Option ℚ :=
  fun k' => if k' = k then some v else g k'

/-- A sequence of dict assignments, applied left to right. -/
def writeAll (ws : List (String × ℚ)) (g : String → Option ℚ) : String → Option ℚ :=
  ws.foldl (fun acc w => updF acc w.1 w.2) g

/-- The last value written to key `k` by the sequence `ws`, if any. -/
def lastWrite (k : String) : List (String × ℚ) → Option ℚ
  | [] => none
  | w :: ws => (lastWrite k ws).orElse fun _ => if w.1 = k then some w.2 else none

/-- Assignment `self.selected_functions[k] = v` on a dict modelled as an
association list in insertion order: replace in place if present, else
append. -/
def dictInsert (l : List (String × Option String)) (k : String) (v : Option String) :
    List (String × Option String) :=
  if (l.find? fun p => p.1 = k).isSome then
    l.map fun p => if p.1 = k then (k, v) else p
  else l ++ [(k, v)]

/-- The loop of `compute_max_deviation` (`mapping.py` lines 190-198) over the
best-fit entries.  Each entry first records `selected_functions[train_col] =
best_func`; a `None` best function then raises `KeyError` on
`self.ideal_data[None]` (success flag `false`), otherwise the maximal
absolute deviation between the training and ideal columns is stored in
`max_deviation`.  `np.max` of an empty array raises, hence the `max?`
check. -/
def cmdLoop (train ideal : Table) :
    List Entry → List (String × Option String) → (String → Option ℚ) →
      Bool × List (String × Option String) × (String → Option ℚ)
  | [], sel, md => (true, sel, md)
  | e :: rest, sel, md =>
    let sel' := dictInsert sel e.1 e.2.1
    match e.2.1 with
    | none => (false, sel', md)
    | some f =>
      match lookupCol train.cols e.1, lookupCol ideal.cols f with
      | some ytr, some yid =>
        match absDiffs ytr yid with
        | some ds =>
          match ds.max? with
          | some v => cmdLoop train ideal rest sel' (updF md f v)
          | none => (false, sel', md)
        | none => (false, sel', md)
      | _, _ => (false, sel', md)

/-- Embedding of `TestDataMapper.compute_max_deviation` (`mapping.py` lines 178-198): run
`find_best_fit`, then fill `selected_functions` and `max_deviation` from its
entries.  A `None` return from `find_best_fit` makes `best_fits.items()`
raise `AttributeError` before any mutation (flag `false`, state unchanged);
the flag is also `false` when a later lookup raises, in which case the
mutations already performed are kept. -/
def computeMaxDeviation (s : SysState) : Bool × SysState :=
  match findBestFit s.train s.ideal with
  | none => (false, s)
  | some entries =>
    let r := cmdLoop s.train s.ideal entries s.selected s.maxDev
    (r.1, { s with selected := r.2.1, maxDev := r.2.2 })

/-- The successful processing of one best-fit entry by the loop of
`compute_max_deviation`: the entry's best function is `w.1` and `w.2` is
`np.max(np.abs(train[train_col] - ideal[best_func]))`, the value written to
`max_deviation[w.1]`. -/
def entryComputes (train ideal : Table) (e : Entry) (w : String × ℚ) : Prop :=
  e.2.1 = some w.1 ∧
    ∃ ytr yid ds, lookupCol train.cols e.1 = some ytr ∧
      lookupCol ideal.cols w.1 = some yid ∧ absDiffs ytr yid = some ds ∧
      ds.max? = some w.2

/-! ### `map_test_data` -/

/-- The eligibility comparison `deviation <= sqrt(2) * max_deviation`
(`mapping.py` lines 231-234), stated on rationals via squares; theorem
`devWithin_iff_real` shows this is the same condition over the reals for the
nonnegative deviations the code compares. -/
def devWithin (d m : ℚ) : Prop := 0 ≤ m ∧ d ^ 2 ≤ 2 * m ^ 2

instance (d m : ℚ) : Decidable (devWithin d m) :=
  inferInstanceAs (Decidable (_ ∧ _))

/-- One output row of `map_test_data` (`mapping.py` line 239): the test
point, the recorded deviation (`float('inf')` = `⊤` when nothing was
assigned), and the assigned ideal function if any. -/
structure MappedRow where
  x : ℚ
  y_test : ℚ
  deviation : WithTop ℚ
  ideal_function : Option String
deriving DecidableEq, Repr

/-- The candidate loop of `map_test_data` for one test point (`mapping.py`
lines 222-237).  Candidates are the (possibly `None`) values of
`selected_functions`; a `None` candidate or a missing column raises
`KeyError` on the `.loc` lookup (`none` result).  An empty row selection for
`x_test` skips the candidate; otherwise the deviation to the first matching
row is compared against the threshold, with a strict improvement required to
replace the running best. -/
def pointLoop (ideal : Table) (md : String → Option ℚ) (x y : ℚ) :
    List (Option String) → Option String × WithTop ℚ →
      Option (Option String × WithTop ℚ)
  | [], acc => some acc
  | c :: rest, acc =>
    match c.bind fun f => (lookupCol ideal.cols f).map fun ys => (f, ys) with
    | none => none
    | some (f, ys) =>
      match (ideal.x.zip ys).find? fun p => p.1 = x with
      | none => pointLoop ideal md x y rest acc
      | some p =>
        let dev := |y - p.2|
        match md f with
        | none => none
        | some m =>
          if devWithin dev m ∧ (dev : WithTop ℚ) < acc.2 then
            pointLoop ideal md x y rest (some f, (dev : WithTop ℚ))
          else pointLoop ideal md x y rest acc

/-- The contribution of one candidate to the point scan, defined for states
in which the loop does not raise: the deviation at the first row matching
`x`, filtered by the eligibility threshold. -/
def valPt (ideal : Table) (md : String → Option ℚ) (x y : ℚ) (c : Option String) :
    Option (String × ℚ) :=
  c.bind fun f =>
    (lookupCol ideal.cols f).bind fun ys =>
      ((ideal.x.zip ys).find? fun p => p.1 = x).bind fun p =>
        (md f).bind fun m =>
          if devWithin |y - p.2| m then some (f, |y - p.2|) else none

/-- The row loop of `map_test_data` (`mapping.py` lines 217-241): one output
row per test point, in input order; an exception while processing any point
aborts the whole call. -/
def mtdLoop (ideal : Table) (md : String → Option ℚ) (funcs : List (Option String)) :
    List (ℚ × ℚ) → Option (List MappedRow)
  | [] => some []
  | (x, y) :: rest =>
    match pointLoop ideal md x y funcs (none, ⊤) with
    | none => none
    | some r => (mtdLoop ideal md funcs rest).map fun rs => ⟨x, y, r.2, r.1⟩ :: rs

/-- Embedding of `TestDataMapper.map_test_data` (`mapping.py` lines 201-241).  The
candidate set is `set(self.selected_functions.values())`; Python's `set` is
unordered, modelled here by deduplicating the value list (the per-point
properties proved below hold for every candidate order). -/
def mapTestData (s : SysState) : Option (List MappedRow) :=
  mtdLoop s.ideal s.maxDev ((s.selected.map (·.2)).dedup) s.test

/-! ### The operations as steps on the mapper state, for the frame claim -/

/-- The three core operations. -/
inductive Op : Type
  | findBest : Op
  | computeMax : Op
  | mapTest : Op

/-- Effect of one operation on the mapper state: `find_best_fit` and
`map_test_data` only read state (their results are returned, not stored);
`compute_max_deviation` rewrites the two dicts (even a run that raises keeps
the mutations made before the exception). -/
def stepOp (s : SysState) : Op → SysState
  | Op.findBest => s
  | Op.computeMax => (computeMaxDeviation s).2
  | Op.mapTest => s

/-- Run a sequence of core operations. -/
def runOps (s : SysState) (ops : List Op) : SysState :=
  ops.foldl stepOp s

example : sse [1, 0, 0] [0, 0, 0] = 1 := by norm_num [sse, List.zip]
example : round4 (1 / 3) = 3333 / 10000 := by norm_num [round4, roundHalfEven]
example :
    bestMatchFor [0, 1, 2] [("y1", [0, 1, 2]), ("y2", [0, 2, 4])] =
      (some "y1", ((0 : ℚ) : WithTop ℚ)) := by
  norm_num [bestMatchFor, bestLoop, sse, List.zip]
example :
    findBestFit ⟨[0, 1], [("y1", [0, 0])]⟩ ⟨[0, 1, 2], [("y1", [0, 0, 0])]⟩ =
      some [("y1", (none, ⊤))] := by
  norm_num [findBestFit, entryFor, bestMatchFor, bestLoop, divRound4,
    List.insertionSort, List.orderedInsert]

/-! ### Lemmas about the generic scan -/

theorem find?_congruent {α : Type} (p q : α → Bool) :
    ∀ (l : List α), (∀ a ∈ l, p a = q a) → l.find? p = l.find? q := by
  intro l
  induction l with
  | nil => intro _; rfl
  | cons a t ih =>
    intro h
    have ha := h a (List.mem_cons_self a t)
    cases hpa : p a with
    | true =>
      rw [List.find?_cons_of_pos t hpa, List.find?_cons_of_pos t (by rw [← ha, hpa])]
    | false =>
      rw [List.find?_cons_of_neg t (by simp [hpa]),
        List.find?_cons_of_neg t (by simp [← ha, hpa]),
        ih fun x hx => h x (List.mem_cons_of_mem a hx)]

theorem not_leOpt {β : Type} {v : ℚ} {o : Option (β × ℚ)} (h : ¬ leOpt v o) :
    ∃ p, o = some p ∧ p.2 < v := by
  cases o with
  | none => exact absurd trivial h
  | some p => exact ⟨p, rfl, lt_of_not_le h⟩

theorem exists_isScanMin {α β : Type} (val : α → Option (β × ℚ)) (c : WithTop ℚ) :
    ∀ (l : List α), (∃ a ∈ l, ∃ p, val a = some p ∧ (p.2 : WithTop ℚ) < c) →
      ∃ x ∈ l, isScanMin val l c x := by
  intro l
  induction l with
  | nil => rintro ⟨a, ha, _⟩; exact absurd ha (List.not_mem_nil a)
  | cons a t ih =>
    rintro ⟨w, hw, q, hq, hqc⟩
    by_cases hA : ∃ p, val a = some p ∧ ((p.2 : WithTop ℚ) < c ∧ ∀ a' ∈ t, leOpt p.2 (val a'))
    · obtain ⟨p, hp, hpc, hall⟩ := hA
      refine ⟨a, List.mem_cons_self a t, p, hp, hpc, ?_⟩
      intro a' ha'
      rcases List.mem_cons.mp ha' with rfl | h'
      · rw [hp]; exact le_refl p.2
      · exact hall a' h'
    · have hT : ∃ a' ∈ t, ∃ q', val a' = some q' ∧ ((q'.2 : WithTop ℚ) < c) := by
        rcases List.mem_cons.mp hw with rfl | hwT
        · push_neg at hA
          obtain ⟨a', ha', hno⟩ := hA q hq hqc
          obtain ⟨q', hq', hlt⟩ := not_leOpt hno
          exact ⟨a', ha', q', hq',
            lt_trans (by exact_mod_cast hlt) hqc⟩
        · exact ⟨w, hwT, q, hq, hqc⟩
      obtain ⟨x, hx, r, hr, hrc, hrall⟩ := ih hT
      refine ⟨x, List.mem_cons_of_mem a hx, r, hr, hrc, ?_⟩
      intro a' ha'
      rcases List.mem_cons.mp ha' with rfl | h'
      · cases hva : val a' with
        | none => trivial
        | some p =>
          rw [leOpt]
          by_cases hpc : (p.2 : WithTop ℚ) < c
          · push_neg at hA
            obtain ⟨z, hz, hno⟩ := hA p hva hpc
            obtain ⟨q', hq', hlt⟩ := not_leOpt hno
            have hrq : r.2 ≤ q'.2 := by
              have := hrall z hz; rw [hq'] at this; exact this
            exact le_of_lt (lt_of_le_of_lt hrq hlt)
          · have hcp : c ≤ (p.2 : WithTop ℚ) := not_lt.mp hpc
            exact_mod_cast le_of_lt (lt_of_lt_of_le hrc hcp)
      · exact hrall a' h'

theorem scanMinLoop_eq_result {α β : Type} (val : α → Option (β × ℚ)) :
    ∀ (l : List α) (b : Option β) (m₀ : WithTop ℚ),
      scanMinLoop val l (b, m₀) = scanMinResult val l (b, m₀) := by
  intro l
  induction l with
  | nil => intro b m₀; rfl
  | cons a t ih =>
    intro b m₀
    cases hva : val a with
    | none =>
      have hhead : ¬ isScanMin val (a :: t) m₀ a := by
        rintro ⟨p, hp, -, -⟩; rw [hva] at hp; exact Option.noConfusion hp
      have hcong : (t.find? fun x => decide (isScanMin val (a :: t) m₀ x)) =
          t.find? fun x => decide (isScanMin val t m₀ x) := by
        apply find?_congruent
        intro x hx
        rw [decide_eq_decide]
        constructor
        · rintro ⟨p, hp, hc, hall⟩
          exact ⟨p, hp, hc, fun a' ha' => hall a' (List.mem_cons_of_mem a ha')⟩
        · rintro ⟨p, hp, hc, hall⟩
          refine ⟨p, hp, hc, fun a' ha' => ?_⟩
          rcases List.mem_cons.mp ha' with rfl | h'
          · rw [hva]; trivial
          · exact hall a' h'
      simp only [scanMinLoop, hva]
      rw [ih]
      simp only [scanMinResult]
      rw [List.find?_cons_of_neg _ (by simp only [decide_eq_true_eq]; exact hhead), hcong]
    | some p =>
      by_cases hlt : (p.2 : WithTop ℚ) < m₀
      · by_cases hall : ∀ a' ∈ t, leOpt p.2 (val a')
        · have hhead : isScanMin val (a :: t) m₀ a := by
            refine ⟨p, hva, hlt, fun a' ha' => ?_⟩
            rcases List.mem_cons.mp ha' with rfl | h'
            · rw [hva]; exact le_refl p.2
            · exact hall a' h'
          have hnone : (t.find? fun x =>
              decide (isScanMin val t (p.2 : WithTop ℚ) x)) = none := by
            rw [List.find?_eq_none]
            intro x hx hdx
            obtain ⟨r, hr, hrc, -⟩ := of_decide_eq_true hdx
            have hpr : p.2 ≤ r.2 := by
              have := hall x hx; rw [hr] at this; exact this
            have hrp : r.2 < p.2 := by exact_mod_cast hrc
            exact absurd (lt_of_le_of_lt hpr hrp) (lt_irrefl _)
          simp only [scanMinLoop, hva, if_pos hlt]
          rw [ih]
          simp only [scanMinResult]
          rw [List.find?_cons_of_pos _ (by simp only [decide_eq_true_eq]; exact hhead),
            hnone]
          simp [hva]
        · push_neg at hall
          obtain ⟨z, hz, hno⟩ := hall
          obtain ⟨q', hq', hqlt⟩ := not_leOpt hno
          have hhead : ¬ isScanMin val (a :: t) m₀ a := by
            rintro ⟨r, hr, -, hall'⟩
            rw [hva] at hr
            cases hr
            have := hall' z (List.mem_cons_of_mem a hz)
            rw [hq'] at this
            exact absurd this (not_le.mpr hqlt)
          have hcong : (t.find? fun x => decide (isScanMin val (a :: t) m₀ x)) =
              t.find? fun x => decide (isScanMin val t (p.2 : WithTop ℚ) x) := by
            apply find?_congruent
            intro x hx
            rw [decide_eq_decide]
            constructor
            · rintro ⟨r, hr, hrc, hall'⟩
              have h1 : r.2 ≤ q'.2 := by
                have := hall' z (List.mem_cons_of_mem a hz); rw [hq'] at this; exact this
              refine ⟨r, hr, ?_, fun a' ha' => hall' a' (List.mem_cons_of_mem a ha')⟩
              exact_mod_cast lt_of_le_of_lt h1 hqlt
            · rintro ⟨r, hr, hrc, hall'⟩
              have hrp : r.2 < p.2 := by exact_mod_cast hrc
              refine ⟨r, hr, lt_trans hrc hlt, fun a' ha' => ?_⟩
              rcases List.mem_cons.mp ha' with rfl | h'
              · rw [hva]; exact le_of_lt hrp
              · exact hall' a' h'
          have hne : (t.find? fun x =>
              decide (isScanMin val t (p.2 : WithTop ℚ) x)) ≠ none := by
            intro hn
            rw [List.find?_eq_none] at hn
            obtain ⟨x, hx, hmin⟩ := exists_isScanMin val (p.2 : WithTop ℚ) t
              ⟨z, hz, q', hq', by exact_mod_cast hqlt⟩
            exact hn x hx (decide_eq_true hmin)
          simp only [scanMinLoop, hva, if_pos hlt]
          rw [ih]
          simp only [scanMinResult]
          rw [List.find?_cons_of_neg _ (by simp only [decide_eq_true_eq]; exact hhead),
            hcong]
          cases hf : t.find? fun x => decide (isScanMin val t (p.2 : WithTop ℚ) x) with
          | none => exact absurd hf hne
          | some x =>
            have hpx := List.find?_some hf
            simp only [decide_eq_true_eq] at hpx
            obtain ⟨r, hr, -, -⟩ := hpx
            simp [hr]
      · have hhead : ¬ isScanMin val (a :: t) m₀ a := by
          rintro ⟨r, hr, hrc, -⟩
          rw [hva] at hr
          cases hr
          exact hlt hrc
        have hcong : (t.find? fun x => decide (isScanMin val (a :: t) m₀ x)) =
            t.find? fun x => decide (isScanMin val t m₀ x) := by
          apply find?_congruent
          intro x hx
          rw [decide_eq_decide]
          constructor
          · rintro ⟨r, hr, hrc, hall'⟩
            exact ⟨r, hr, hrc, fun a' ha' => hall' a' (List.mem_cons_of_mem a ha')⟩
          · rintro ⟨r, hr, hrc, hall'⟩
            refine ⟨r, hr, hrc, fun a' ha' => ?_⟩
            rcases List.mem_cons.mp ha' with rfl | h'
            · rw [hva]
              have hmp : m₀ ≤ (p.2 : WithTop ℚ) := not_lt.mp hlt
              exact_mod_cast le_of_lt (lt_of_lt_of_le hrc hmp)
            · exact hall' a' h'
        simp only [scanMinLoop, hva, if_neg hlt]
        rw [ih]
        simp only [scanMinResult]
        rw [List.find?_cons_of_neg _ (by simp only [decide_eq_true_eq]; exact hhead), hcong]

/-! ### The selection loop of `find_best_fit` as a scan -/

theorem bestLoop_eq_scan (yTrain : List ℚ) :
    ∀ (cols : List Col) (acc : Option String × WithTop ℚ),
      bestLoop yTrain acc cols = scanMinLoop (valSel yTrain) cols acc := by
  intro cols
  induction cols with
  | nil => intro acc; rfl
  | cons c rest ih =>
    intro acc
    by_cases h : yTrain.length = c.2.length
    · simp only [bestLoop, if_pos h, scanMinLoop, valSel]
      split_ifs with h2 <;> exact ih _
    · simp only [bestLoop, if_neg h, scanMinLoop, valSel, if_neg h]
      exact ih acc

theorem isScanMin_valSel_iff (yTrain : List ℚ) (cols : List Col) (c : Col) :
    isScanMin (valSel yTrain) cols ⊤ c ↔
      (yTrain.length = c.2.length ∧
        ∀ d ∈ matchingCols yTrain cols, sse yTrain c.2 ≤ sse yTrain d.2) := by
  constructor
  · rintro ⟨p, hp, -, hall⟩
    rw [valSel] at hp
    by_cases h : yTrain.length = c.2.length
    · rw [if_pos h] at hp
      cases hp
      refine ⟨h, fun d hd => ?_⟩
      rw [matchingCols, List.mem_filter] at hd
      obtain ⟨hdc, hdm⟩ := hd
      have := hall d hdc
      rw [valSel, if_pos (of_decide_eq_true hdm)] at this
      exact this
    · rw [if_neg h] at hp
      exact Option.noConfusion hp
  · rintro ⟨h, hall⟩
    refine ⟨(c.1, sse yTrain c.2), by rw [valSel, if_pos h], WithTop.coe_lt_top _,
      fun d hd => ?_⟩
    rw [valSel]
    by_cases hm : yTrain.length = d.2.length
    · rw [if_pos hm]
      exact hall d (by rw [matchingCols, List.mem_filter]; exact ⟨hd, decide_eq_true hm⟩)
    · rw [if_neg hm]
      trivial

/-- The per-training-column scan of `find_best_fit` agrees with the
specification's description of the selection. -/
theorem bestMatchFor_eq_specSelect (yTrain : List ℚ) (cols : List Col) :
    bestMatchFor yTrain cols = specSelect yTrain cols := by
  rw [bestMatchFor, bestLoop_eq_scan, scanMinLoop_eq_result]
  have hfind : (cols.find? fun c => decide (isScanMin (valSel yTrain) cols ⊤ c)) =
      ((matchingCols yTrain cols).find? fun c =>
        decide (∀ d ∈ matchingCols yTrain cols, sse yTrain c.2 ≤ sse yTrain d.2)) := by
    rw [matchingCols, List.find?_filter]
    apply find?_congruent
    intro c hc
    rw [decide_eq_decide]
    simp only [decide_eq_true_eq]
    simpa only [matchingCols] using isScanMin_valSel_iff yTrain cols c
  rw [scanMinResult, hfind, specSelect, matchingCols]
  cases hf : ((cols.filter fun c => decide (yTrain.length = c.2.length)).find? fun c =>
      decide (∀ d ∈ cols.filter fun d => decide (yTrain.length = d.2.length),
        sse yTrain c.2 ≤ sse yTrain d.2)) with
  | none => rfl
  | some c =>
    have hmem := List.mem_of_find?_eq_some hf
    rw [List.mem_filter] at hmem
    have hlen := of_decide_eq_true hmem.2
    simp [valSel, hlen]

/-! ### Destructing a successful `find_best_fit` -/

theorem findBestFit_eq_some {train ideal : Table} {res : List Entry}
    (h : findBestFit train ideal = some res) :
    (¬ train.cols.any fun c => c.2.isEmpty) ∧
      res = (List.insertionSort entryLE (train.cols.map (entryFor ideal.cols))).take 4 := by
  rw [findBestFit] at h
  split_ifs at h with hc
  all_goals first
    | exact Option.noConfusion h
    | exact ⟨hc, (Option.some.inj h).symm⟩

theorem findBestFit_entries_spec :
    ∀ (train ideal : Table) (res : List Entry), findBestFit train ideal = some res →
      ∀ e ∈ res, ∃ tc ∈ train.cols,
        e = (tc.1, ((specSelect tc.2 ideal.cols).1,
          divRound4 (specSelect tc.2 ideal.cols).2 tc.2.length)) := by
  intro train ideal res hres e he
  obtain ⟨-, rfl⟩ := findBestFit_eq_some hres
  have h1 : e ∈ List.insertionSort entryLE (train.cols.map (entryFor ideal.cols)) :=
    List.take_subset 4 _ he
  rw [List.mem_insertionSort] at h1
  obtain ⟨tc, htc, rfl⟩ := List.mem_map.mp h1
  refine ⟨tc, htc, ?_⟩
  simp [entryFor, bestMatchFor_eq_specSelect]

/-- C1: for every training curve, `find_best_fit` selects, among the ideal
columns whose value column has the same length, the one with globally minimal
`SSE`, ties resolved by the first ideal column encountered in table column
order: the selection loop agrees with the specification's `specSelect`, and
every entry a successful `find_best_fit` returns is the `specSelect` result
for its training column (with the recorded, rounded error derived from the
selected minimal SSE). -/
theorem find_best_fit_selects_min_sse :
    (∀ (yTrain : List ℚ) (cols : List Col),
        bestMatchFor yTrain cols = specSelect yTrain cols) ∧
      ∀ (train ideal : Table) (res : List Entry), findBestFit train ideal = some res →
        ∀ e ∈ res, ∃ tc ∈ train.cols,
          e = (tc.1, ((specSelect tc.2 ideal.cols).1,
            divRound4 (specSelect tc.2 ideal.cols).2 tc.2.length)) :=
  ⟨bestMatchFor_eq_specSelect, findBestFit_entries_spec⟩

/-- Witness for C1 on concrete two-candidate tables. -/
theorem find_best_fit_selects_min_sse_witness :
    ∃ tc ∈ (Table.mk [0, 1, 2] [("y1", [0, 1, 2])]).cols,
      (("y1", (some "y1", ((0 : ℚ) : WithTop ℚ))) : Entry) =
        (tc.1, ((specSelect tc.2 (Table.mk [0, 1, 2]
            [("y1", [0, 1, 2]), ("y2", [0, 2, 4])]).cols).1,
          divRound4 (specSelect tc.2 (Table.mk [0, 1, 2]
            [("y1", [0, 1, 2]), ("y2", [0, 2, 4])]).cols).2 tc.2.length)) :=
  find_best_fit_selects_min_sse.2
    (Table.mk [0, 1, 2] [("y1", [0, 1, 2])])
    (Table.mk [0, 1, 2] [("y1", [0, 1, 2]), ("y2", [0, 2, 4])])
    [("y1", (some "y1", ((0 : ℚ) : WithTop ℚ)))]
    (by
      norm_num [findBestFit, entryFor, bestMatchFor, bestLoop, divRound4, round4,
        roundHalfEven, sse, List.zip, List.insertionSort, List.orderedInsert,
        WithTop.coe_lt_coe, WithTop.coe_lt_top, WithTop.map_coe]
      simp +decide)
    ("y1", (some "y1", ((0 : ℚ) : WithTop ℚ)))
    (by simp)

/-- C6: the best-fit ranking returns at most 4 entries, sorted in ascending
order of recorded MSE; when the input has 4 or fewer training columns, every
training column's entry is in the result. -/
theorem find_best_fit_ranking (train ideal : Table) (res : List Entry)
    (hres : findBestFit train ideal = some res) :
    res.length ≤ 4 ∧ List.Sorted entryLE res ∧
      (train.cols.length ≤ 4 → ∀ tc ∈ train.cols, entryFor ideal.cols tc ∈ res) := by
  obtain ⟨-, rfl⟩ := findBestFit_eq_some hres
  refine ⟨?_, ?_, ?_⟩
  · rw [List.length_take]; exact min_le_left _ _
  · exact List.Pairwise.sublist (List.take_sublist 4 _)
      (List.sorted_insertionSort entryLE _)
  · intro hlen tc htc
    have h4 : (List.insertionSort entryLE (train.cols.map (entryFor ideal.cols))).length ≤ 4 := by
      rw [List.length_insertionSort, List.length_map]; exact hlen
    rw [List.take_of_length_le h4, List.mem_insertionSort]
    exact List.mem_map_of_mem _ htc

/-- Witness for C6 on a concrete one-curve table. -/
theorem find_best_fit_ranking_witness :
    ([("y1", (some "y1", ((0 : ℚ) : WithTop ℚ)))] : List Entry).length ≤ 4 ∧
      List.Sorted entryLE [("y1", (some "y1", ((0 : ℚ) : WithTop ℚ)))] ∧
      ((Table.mk [0, 1, 2] [("y1", [0, 1, 2])]).cols.length ≤ 4 →
        ∀ tc ∈ (Table.mk [0, 1, 2] [("y1", [0, 1, 2])]).cols,
          entryFor (Table.mk [0, 1, 2]
              [("y1", [0, 1, 2]), ("y2", [0, 2, 4])]).cols tc ∈
            [("y1", (some "y1", ((0 : ℚ) : WithTop ℚ)))]) :=
  find_best_fit_ranking
    (Table.mk [0, 1, 2] [("y1", [0, 1, 2])])
    (Table.mk [0, 1, 2] [("y1", [0, 1, 2]), ("y2", [0, 2, 4])])
    [("y1", (some "y1", ((0 : ℚ) : WithTop ℚ)))]
    (by
      norm_num [findBestFit, entryFor, bestMatchFor, bestLoop, divRound4, round4,
        roundHalfEven, sse, List.zip, List.insertionSort, List.orderedInsert,
        WithTop.coe_lt_coe, WithTop.coe_lt_top, WithTop.map_coe]
      simp +decide)

/-! ### Unmatched training curves: the `(None, inf)` entry -/

theorem cmdLoop_ok_all_some (train ideal : Table) :
    ∀ (entries : List Entry) (sel : List (String × Option String))
      (md : String → Option ℚ),
      (cmdLoop train ideal entries sel md).1 = true → ∀ e ∈ entries, e.2.1 ≠ none := by
  intro entries
  induction entries with
  | nil => intro sel md _ e he; exact absurd he (List.not_mem_nil e)
  | cons e rest ih =>
    intro sel md hok e' he'
    rw [cmdLoop] at hok
    cases hbf : e.2.1 with
    | none => rw [hbf] at hok; simp at hok
    | some f =>
      rw [hbf] at hok
      rcases he' with _ | ⟨_, hmem⟩
      · simp [hbf]
      · cases h1 : lookupCol train.cols e.1 with
        | none => simp only [h1] at hok; simp at hok
        | some ytr =>
          simp only [h1] at hok
          cases h2 : lookupCol ideal.cols f with
          | none => simp only [h2] at hok; simp at hok
          | some yid =>
            simp only [h2] at hok
            cases h3 : absDiffs ytr yid with
            | none => simp only [h3] at hok; simp at hok
            | some ds =>
              simp only [h3] at hok
              cases h4 : ds.max? with
              | none => simp only [h4] at hok; simp at hok
              | some v =>
                simp only [h4] at hok
                exact ih _ _ hok e' hmem

/-- C3 (amended): a training curve with no matching-length ideal curve is NOT
excluded: its `(None, inf)` entry is recorded and participates in the
ranking (it is in the returned mapping whenever at most 4 training columns
exist); selection itself raises no exception, but the downstream
`compute_max_deviation` fails (`KeyError` on `ideal_data[None]`) whenever
such an entry is among the returned entries. -/
theorem no_matching_entry_ranked_amended :
    (∀ (train ideal : Table) (tc : Col),
      (¬ train.cols.any fun c => c.2.isEmpty) → tc ∈ train.cols →
      (∀ d ∈ ideal.cols, tc.2.length ≠ d.2.length) →
      ∃ res, findBestFit train ideal = some res ∧
        (train.cols.length ≤ 4 → (tc.1, (none, (⊤ : WithTop ℚ))) ∈ res)) ∧
    ∀ (s : SysState) (entries : List Entry),
      findBestFit s.train s.ideal = some entries →
      (∃ e ∈ entries, e.2.1 = none) → (computeMaxDeviation s).1 = false := by
  constructor
  · intro train ideal tc h1 h2 h3
    refine ⟨_, by rw [findBestFit, if_neg (by simpa using h1)], ?_⟩
    intro hlen
    have hmatch : matchingCols tc.2 ideal.cols = [] := by
      rw [matchingCols, List.filter_eq_nil_iff]
      intro d hd
      simpa using (h3 d hd)
    have hbm : bestMatchFor tc.2 ideal.cols = (none, ⊤) := by
      rw [bestMatchFor_eq_specSelect, specSelect, hmatch]
      rfl
    have hentry : entryFor ideal.cols tc = (tc.1, (none, (⊤ : WithTop ℚ))) := by
      rw [entryFor, hbm]
      rfl
    have h4 : (List.insertionSort entryLE (train.cols.map (entryFor ideal.cols))).length ≤ 4 := by
      rw [List.length_insertionSort, List.length_map]; exact hlen
    rw [List.take_of_length_le h4, List.mem_insertionSort, ← hentry]
    exact List.mem_map_of_mem _ h2
  · intro s entries hfind ⟨e, he, hnone⟩
    cases hok : (computeMaxDeviation s).1 with
    | false => rfl
    | true =>
      rw [computeMaxDeviation, hfind] at hok
      exact absurd hnone (cmdLoop_ok_all_some s.train s.ideal entries s.selected s.maxDev hok e he)

/-- C3 counterexample: with one training curve of length 2 and only a
length-3 ideal curve, the `(None, inf)` entry IS returned by
`find_best_fit` (it is ranked, not excluded), and `compute_max_deviation`
fails on it, contradicting the claim that such a curve is excluded and that
the downstream deviation computation does not crash. -/
theorem no_matching_entry_ranked_counterexample :
    findBestFit (Table.mk [0, 1] [("y1", [0, 0])]) (Table.mk [0, 1, 2] [("y1", [0, 0, 0])]) =
      some [("y1", (none, ⊤))] ∧
    (computeMaxDeviation
      ⟨Table.mk [0, 1] [("y1", [0, 0])], Table.mk [0, 1, 2] [("y1", [0, 0, 0])],
        [], [], fun _ => none⟩).1 = false := by
  constructor
  · norm_num [findBestFit, entryFor, bestMatchFor, bestLoop, divRound4,
      List.insertionSort, List.orderedInsert]
  · norm_num [computeMaxDeviation, findBestFit, entryFor, bestMatchFor, bestLoop,
      divRound4, List.insertionSort, List.orderedInsert, cmdLoop, dictInsert]

/-- Witness for the amended C3 on the same concrete tables. -/
theorem no_matching_entry_ranked_amended_witness :
    (∃ res, findBestFit (Table.mk [0, 1] [("y1", [0, 0])])
        (Table.mk [0, 1, 2] [("y1", [0, 0, 0])]) = some res ∧
      ((Table.mk [0, 1] [("y1", [0, 0])]).cols.length ≤ 4 →
        (("y1", (none, (⊤ : WithTop ℚ))) : Entry) ∈ res)) ∧
    (computeMaxDeviation
      ⟨Table.mk [0, 1] [("y1", [0, 0])], Table.mk [0, 1, 2] [("y1", [0, 0, 0])],
        [], [], fun _ => none⟩).1 = false := by
  constructor
  · exact no_matching_entry_ranked_amended.1
      (Table.mk [0, 1] [("y1", [0, 0])]) (Table.mk [0, 1, 2] [("y1", [0, 0, 0])])
      ("y1", [0, 0]) (by decide) (by simp) (by decide)
  · exact no_matching_entry_ranked_amended.2
      ⟨Table.mk [0, 1] [("y1", [0, 0])], Table.mk [0, 1, 2] [("y1", [0, 0, 0])],
        [], [], fun _ => none⟩
      [("y1", (none, ⊤))]
      (by norm_num [findBestFit, entryFor, bestMatchFor, bestLoop, divRound4,
        List.insertionSort, List.orderedInsert])
      ⟨("y1", (none, ⊤)), by simp, rfl⟩

/-! ### The recorded error value is the rounded MSE -/

/-- C7 (amended): the error value recorded for a training curve is
`round(SSE(c,d*)/n, 4)` — the minimal-SSE mean squared error rounded
half-even to four decimal places — rather than the exact quotient. -/
theorem recorded_error_eq_rounded_mse (train ideal : Table) (res : List Entry)
    (hres : findBestFit train ideal = some res) :
    ∀ e ∈ res, ∃ tc ∈ train.cols, e.1 = tc.1 ∧
      e.2 = ((specSelect tc.2 ideal.cols).1,
        (specSelect tc.2 ideal.cols).2.map fun q => round4 (q / (tc.2.length : ℚ))) := by
  intro e he
  obtain ⟨tc, htc, rfl⟩ := findBestFit_entries_spec train ideal res hres e he
  exact ⟨tc, htc, rfl, rfl⟩

/-- C7 counterexample: with training column `[1,0,0]` and ideal column
`[0,0,0]`, the minimal SSE is `1` over `n = 3` points, so the exact MSE is
`1/3`; the recorded value is `0.3333 = 3333/10000 ≠ 1/3`. -/
theorem recorded_error_rounded_counterexample :
    findBestFit (Table.mk [0, 1, 2] [("y1", [1, 0, 0])])
        (Table.mk [0, 1, 2] [("y1", [0, 0, 0])]) =
      some [("y1", (some "y1", ((3333 / 10000 : ℚ) : WithTop ℚ)))] ∧
    sse [1, 0, 0] [0, 0, 0] / (([1, 0, 0] : List ℚ).length : ℚ) = (1 / 3 : ℚ) ∧
    (3333 / 10000 : ℚ) ≠ 1 / 3 := by
  refine ⟨?_, by norm_num [sse, List.zip], by norm_num⟩
  norm_num [findBestFit, entryFor, bestMatchFor, bestLoop, divRound4, round4,
    roundHalfEven, sse, List.zip, List.insertionSort, List.orderedInsert,
    WithTop.coe_lt_coe, WithTop.coe_lt_top, WithTop.map_coe]
  norm_num [Int.fract]

/-- Witness for the amended C7 on the same concrete tables. -/
theorem recorded_error_eq_rounded_mse_witness :
    ∃ tc ∈ (Table.mk [0, 1, 2] [("y1", [1, 0, 0])]).cols,
      (("y1", (some "y1", ((3333 / 10000 : ℚ) : WithTop ℚ))) : Entry).1 = tc.1 ∧
      (("y1", (some "y1", ((3333 / 10000 : ℚ) : WithTop ℚ))) : Entry).2 =
        ((specSelect tc.2 (Table.mk [0, 1, 2] [("y1", [0, 0, 0])]).cols).1,
          (specSelect tc.2 (Table.mk [0, 1, 2] [("y1", [0, 0, 0])]).cols).2.map
            fun q => round4 (q / (tc.2.length : ℚ))) :=
  recorded_error_eq_rounded_mse
    (Table.mk [0, 1, 2] [("y1", [1, 0, 0])])
    (Table.mk [0, 1, 2] [("y1", [0, 0, 0])])
    [("y1", (some "y1", ((3333 / 10000 : ℚ) : WithTop ℚ)))]
    (by
      norm_num [findBestFit, entryFor, bestMatchFor, bestLoop, divRound4, round4,
        roundHalfEven, sse, List.zip, List.insertionSort, List.orderedInsert,
        WithTop.coe_lt_coe, WithTop.coe_lt_top, WithTop.map_coe]
      norm_num [Int.fract])
    ("y1", (some "y1", ((3333 / 10000 : ℚ) : WithTop ℚ)))
    (by simp)

/-! ### `find_best_fit` returning `None`, and the frame of the operations -/

/-- C10: `find_best_fit` never raises: the only exception its body can hit
(the division by zero on a training column with no rows) is caught by the
enclosing `try/except` and surfaced as a `None` return — characterised
exactly — and that `None` return reaches an unguarded caller:
`compute_max_deviation`, which iterates the result without a `None` check,
fails on it (state unchanged) rather than proceeding. -/
theorem find_best_fit_none_on_error :
    (∀ train ideal : Table,
      findBestFit train ideal = none ↔ ∃ c ∈ train.cols, c.2.isEmpty) ∧
    ∀ s : SysState, findBestFit s.train s.ideal = none →
      computeMaxDeviation s = (false, s) := by
  constructor
  · intro train ideal
    rw [findBestFit]
    split_ifs with hc
    · simpa [List.any_eq_true] using hc
    · simp only [List.any_eq_true] at hc
      simpa using hc
  · intro s h
    rw [computeMaxDeviation, h]

/-- Witness for C10: a training table with an empty value column. -/
theorem find_best_fit_none_on_error_witness :
    findBestFit (Table.mk [] [("y1", [])]) (Table.mk [0] [("y1", [0])]) = none ∧
    computeMaxDeviation
        ⟨Table.mk [] [("y1", [])], Table.mk [0] [("y1", [0])], [], [], fun _ => none⟩ =
      (false,
        ⟨Table.mk [] [("y1", [])], Table.mk [0] [("y1", [0])], [], [], fun _ => none⟩) := by
  constructor
  · exact (find_best_fit_none_on_error.1 (Table.mk [] [("y1", [])])
      (Table.mk [0] [("y1", [0])])).mpr ⟨("y1", []), by simp, rfl⟩
  · exact find_best_fit_none_on_error.2
      ⟨Table.mk [] [("y1", [])], Table.mk [0] [("y1", [0])], [], [], fun _ => none⟩
      ((find_best_fit_none_on_error.1 (Table.mk [] [("y1", [])])
        (Table.mk [0] [("y1", [0])])).mpr ⟨("y1", []), by simp, rfl⟩)

theorem stepOp_tables (op : Op) (s : SysState) :
    (stepOp s op).train = s.train ∧ (stepOp s op).ideal = s.ideal ∧
      (stepOp s op).test = s.test := by
  cases op with
  | findBest => exact ⟨rfl, rfl, rfl⟩
  | mapTest => exact ⟨rfl, rfl, rfl⟩
  | computeMax =>
    show (computeMaxDeviation s).2.train = s.train ∧
      (computeMaxDeviation s).2.ideal = s.ideal ∧ (computeMaxDeviation s).2.test = s.test
    rw [computeMaxDeviation]
    cases findBestFit s.train s.ideal <;> exact ⟨rfl, rfl, rfl⟩

/-- C8: the three loaded tables are never mutated: after any sequence of
`find_best_fit`, `compute_max_deviation` and `map_test_data` calls, the
training table, the ideal table and the test points hold exactly the values
they held after loading (only the two derived dicts are written). -/
theorem tables_never_mutated (ops : List Op) (s : SysState) :
    (runOps s ops).train = s.train ∧ (runOps s ops).ideal = s.ideal ∧
      (runOps s ops).test = s.test := by
  induction ops generalizing s with
  | nil => exact ⟨rfl, rfl, rfl⟩
  | cons op rest ih =>
    obtain ⟨h1, h2, h3⟩ := stepOp_tables op s
    obtain ⟨g1, g2, g3⟩ := ih (stepOp s op)
    exact ⟨by rw [runOps, List.foldl_cons, ← runOps, g1, h1],
      by rw [runOps, List.foldl_cons, ← runOps, g2, h2],
      by rw [runOps, List.foldl_cons, ← runOps, g3, h3]⟩

/-! ### Mapping with an empty selection (`map_test_data` before
`compute_max_deviation`) -/

theorem mtdLoop_no_funcs (ideal : Table) (md : String → Option ℚ) :
    ∀ pts : List (ℚ × ℚ),
      mtdLoop ideal md [] pts = some (pts.map fun p => ⟨p.1, p.2, ⊤, none⟩) := by
  intro pts
  induction pts with
  | nil => rfl
  | cons p rest ih =>
    obtain ⟨x, y⟩ := p
    rw [mtdLoop]
    show (mtdLoop ideal md [] rest).map _ = _
    rw [ih]
    rfl

/-- C9: calling `map_test_data` before `compute_max_deviation` (as the
visualization loader does) finds an empty selected-function set, so every
test point comes back unassigned (`ideal_function = None`) with deviation
`float('inf')`, and no error is raised (the call returns a result for every
row, in order). -/
theorem map_test_data_before_compute (s : SysState) (h : s.selected = []) :
    mapTestData s = some (s.test.map fun p => ⟨p.1, p.2, ⊤, none⟩) := by
  rw [mapTestData, h]
  exact mtdLoop_no_funcs s.ideal s.maxDev s.test

/-- Witness for C9 on two concrete test points. -/
theorem map_test_data_before_compute_witness :
    mapTestData
        ⟨Table.mk [0] [("y1", [0])], Table.mk [0] [("y1", [0])],
          [(0, 1), (2, 3)], [], fun _ => none⟩ =
      some [⟨0, 1, ⊤, none⟩, ⟨2, 3, ⊤, none⟩] :=
  map_test_data_before_compute
    ⟨Table.mk [0] [("y1", [0])], Table.mk [0] [("y1", [0])],
      [(0, 1), (2, 3)], [], fun _ => none⟩ rfl


/-! ### The per-point candidate scan of `map_test_data` -/

theorem valPt_some_tag {ideal : Table} {md : String → Option ℚ} {x y : ℚ}
    {c : Option String} {q : String × ℚ} (h : valPt ideal md x y c = some q) :
    c = some q.1 := by
  cases c with
  | none => simp [valPt] at h
  | some g =>
    simp only [valPt, Option.some_bind] at h
    cases h1 : lookupCol ideal.cols g with
    | none => simp only [h1, Option.none_bind] at h; exact Option.noConfusion h
    | some ys =>
      simp only [h1, Option.some_bind] at h
      cases h2 : (ideal.x.zip ys).find? fun p => p.1 = x with
      | none => simp only [h2, Option.none_bind] at h; exact Option.noConfusion h
      | some p =>
        simp only [h2, Option.some_bind] at h
        cases h3 : md g with
        | none => simp only [h3, Option.none_bind] at h; exact Option.noConfusion h
        | some m =>
          simp only [h3, Option.some_bind] at h
          split_ifs at h with hd
          cases Option.some.inj h; rfl

theorem pointLoop_eq_scan (ideal : Table) (md : String → Option ℚ) (x y : ℚ) :
    ∀ (funcs : List (Option String)) (acc : Option String × WithTop ℚ),
      (∀ c ∈ funcs, ∃ f ys, c = some f ∧ lookupCol ideal.cols f = some ys ∧
        ∃ m, md f = some m) →
      pointLoop ideal md x y funcs acc =
        some (scanMinLoop (valPt ideal md x y) funcs acc) := by
  intro funcs
  induction funcs with
  | nil => intro acc _; rfl
  | cons c rest ih =>
    intro acc hwf
    have hrest := fun c' hc' => hwf c' (List.mem_cons_of_mem c hc')
    obtain ⟨f, ys, rfl, hl, m, hm⟩ := hwf c (List.mem_cons_self c rest)
    rw [pointLoop, scanMinLoop]
    cases h2 : (ideal.x.zip ys).find? fun p => p.1 = x with
    | none =>
      have hv : valPt ideal md x y (some f) = none := by
        simp [valPt, hl, h2]
      simp only [Option.some_bind, hl, Option.map_some', h2, hv]
      exact ih acc hrest
    | some p =>
      by_cases hd : devWithin |y - p.2| m
      · have hv : valPt ideal md x y (some f) = some (f, |y - p.2|) := by
          simp [valPt, hl, h2, hm, hd]
        simp only [Option.some_bind, hl, Option.map_some', h2, hm, hv]
        by_cases hlt : ((|y - p.2| : ℚ) : WithTop ℚ) < acc.2
        · rw [if_pos (⟨hd, hlt⟩ : devWithin |y - p.2| m ∧ _), if_pos hlt]
          exact ih _ hrest
        · rw [if_neg (fun hc => hlt hc.2 :
            ¬ (devWithin |y - p.2| m ∧ ((|y - p.2| : ℚ) : WithTop ℚ) < acc.2)), if_neg hlt]
          exact ih _ hrest
      · have hv : valPt ideal md x y (some f) = none := by
          simp [valPt, hl, h2, hm, hd]
        simp only [Option.some_bind, hl, Option.map_some', h2, hm, hv]
        rw [if_neg (fun hc => hd hc.1 :
          ¬ (devWithin |y - p.2| m ∧ ((|y - p.2| : ℚ) : WithTop ℚ) < acc.2))]
        exact ih _ hrest

/-- C2: for every test point `(x, y)`, the candidate loop of `map_test_data`
assigns a candidate `f` (drawn from the selected-function set) only if `f`
contributes an eligible deviation — `|y - y_ideal(x)| <= sqrt(2) *
max_deviation[f]`, embedded as `valPt`'s `devWithin` filter — and among all
eligible candidates it assigns one with the smallest absolute deviation
(recorded as the row's deviation), a candidate being able to replace the
running best only by strict improvement (the result is exactly the
first-minimum `scanMinResult` of the eligible contributions).  Stated for an
arbitrary candidate order, covering every iteration order of Python's
unordered `set`. -/
theorem test_point_assignment (ideal : Table) (md : String → Option ℚ) (x y : ℚ)
    (funcs : List (Option String))
    (hwf : ∀ c ∈ funcs, ∃ f ys, c = some f ∧ lookupCol ideal.cols f = some ys ∧
      ∃ m, md f = some m) :
    ∃ r, pointLoop ideal md x y funcs (none, ⊤) = some r ∧
      r = scanMinResult (valPt ideal md x y) funcs (none, ⊤) ∧
      (∀ f, r.1 = some f → some f ∈ funcs ∧
        ∃ d : ℚ, valPt ideal md x y (some f) = some (f, d) ∧ r.2 = (d : WithTop ℚ)) ∧
      ∀ c ∈ funcs, ∀ q, valPt ideal md x y c = some q →
        r.1 ≠ none ∧ r.2 ≤ (q.2 : WithTop ℚ) := by
  have hchar := scanMinLoop_eq_result (valPt ideal md x y) funcs none ⊤
  cases hf : funcs.find? fun a => decide (isScanMin (valPt ideal md x y) funcs ⊤ a) with
  | none =>
    have hR : scanMinLoop (valPt ideal md x y) funcs (none, ⊤) = (none, ⊤) := by
      rw [hchar, scanMinResult, hf]
    refine ⟨_, pointLoop_eq_scan ideal md x y funcs (none, ⊤) hwf,
      by rw [hchar], ?_, ?_⟩
    · intro f hrf
      rw [hR] at hrf
      exact Option.noConfusion hrf
    · intro c hc q hq
      exfalso
      obtain ⟨z, hz, hmin⟩ := exists_isScanMin (valPt ideal md x y) ⊤ funcs
        ⟨c, hc, q, hq, WithTop.coe_lt_top q.2⟩
      rw [List.find?_eq_none] at hf
      exact hf z hz (decide_eq_true hmin)
  | some a =>
    have hpa := List.find?_some hf
    simp only [decide_eq_true_eq] at hpa
    obtain ⟨q, hq, -, hall⟩ := hpa
    have hmem := List.mem_of_find?_eq_some hf
    have hR : scanMinLoop (valPt ideal md x y) funcs (none, ⊤) =
        (some q.1, (q.2 : WithTop ℚ)) := by
      rw [hchar, scanMinResult, hf]
      simp [hq]
    have haq : a = some q.1 := valPt_some_tag hq
    refine ⟨_, pointLoop_eq_scan ideal md x y funcs (none, ⊤) hwf,
      by rw [hchar], ?_, ?_⟩
    · intro f hrf
      rw [hR] at hrf
      cases Option.some.inj hrf
      refine ⟨haq ▸ hmem, q.2, ?_, by rw [hR]⟩
      rw [← haq]
      exact hq
    · intro c hc q' hq'
      rw [hR]
      refine ⟨by simp, ?_⟩
      have hle := hall c hc
      rw [hq'] at hle
      have hle2 : q.2 ≤ q'.2 := hle
      show (q.2 : WithTop ℚ) ≤ (q'.2 : WithTop ℚ)
      exact_mod_cast hle2

/-- Witness for C2: one candidate with `max_deviation = 2` and a test point
with deviation `0` at `x = 0`. -/
theorem test_point_assignment_witness :
    ∃ r, pointLoop (Table.mk [0] [("y1", [1])])
        (fun k => if k = "y1" then some 2 else none) 0 1 [some "y1"] (none, ⊤) = some r ∧
      r = scanMinResult (valPt (Table.mk [0] [("y1", [1])])
        (fun k => if k = "y1" then some 2 else none) 0 1) [some "y1"] (none, ⊤) ∧
      (∀ f, r.1 = some f → some f ∈ [some "y1"] ∧
        ∃ d : ℚ, valPt (Table.mk [0] [("y1", [1])])
            (fun k => if k = "y1" then some 2 else none) 0 1 (some f) = some (f, d) ∧
          r.2 = (d : WithTop ℚ)) ∧
      ∀ c ∈ [some "y1"], ∀ q, valPt (Table.mk [0] [("y1", [1])])
          (fun k => if k = "y1" then some 2 else none) 0 1 c = some q →
        r.1 ≠ none ∧ r.2 ≤ (q.2 : WithTop ℚ) :=
  test_point_assignment (Table.mk [0] [("y1", [1])])
    (fun k => if k = "y1" then some 2 else none) 0 1 [some "y1"]
    (by
      intro c hc
      rw [List.mem_singleton] at hc
      subst hc
      exact ⟨"y1", [1], rfl, rfl, 2, rfl⟩)

/-- The rational eligibility predicate `devWithin` is exactly the source's
comparison `deviation <= sqrt(2) * max_deviation` over the reals, for the
nonnegative deviations produced by `abs`. -/
theorem devWithin_iff_real (d m : ℚ) (hd : 0 ≤ d) :
    devWithin d m ↔ (d : ℝ) ≤ Real.sqrt 2 * (m : ℝ) := by
  constructor
  · rintro ⟨hm, hsq⟩
    have hm' : (0 : ℝ) ≤ (m : ℝ) := by exact_mod_cast hm
    have hsq' : (d : ℝ) ^ 2 ≤ 2 * (m : ℝ) ^ 2 := by exact_mod_cast hsq
    have hd' : (0 : ℝ) ≤ (d : ℝ) := by exact_mod_cast hd
    calc (d : ℝ) = Real.sqrt ((d : ℝ) ^ 2) := (Real.sqrt_sq hd').symm
      _ ≤ Real.sqrt (2 * (m : ℝ) ^ 2) := Real.sqrt_le_sqrt hsq'
      _ = Real.sqrt 2 * Real.sqrt ((m : ℝ) ^ 2) := Real.sqrt_mul (by norm_num) _
      _ = Real.sqrt 2 * (m : ℝ) := by rw [Real.sqrt_sq hm']
  · intro h
    have hd' : (0 : ℝ) ≤ (d : ℝ) := by exact_mod_cast hd
    have hm' : (0 : ℝ) ≤ (m : ℝ) := by
      by_contra hneg
      push_neg at hneg
      have hlt : Real.sqrt 2 * (m : ℝ) < 0 :=
        mul_neg_of_pos_of_neg (by positivity) hneg
      linarith
    refine ⟨by exact_mod_cast hm', ?_⟩
    have h2 : (d : ℝ) ^ 2 ≤ (Real.sqrt 2 * (m : ℝ)) ^ 2 := by
      apply pow_le_pow_left₀ hd' h
    rw [mul_pow, Real.sq_sqrt (by norm_num : (0 : ℝ) ≤ 2)] at h2
    exact_mod_cast h2

/-! ### Unassigned test points record the infinity sentinel -/

/-- C4 (amended): for a test point with no eligible candidate — no candidate
contributes through `valPt`, whether because its `x` lookup is empty or
because its deviation exceeds the threshold — the resulting row has a null
assigned function and its deviation field is the `float('inf')` sentinel
(distinguishable from any real deviation, in particular from 0); it is NOT
the minimum deviation among the candidates that were examined. -/
theorem unassigned_deviation_amended (ideal : Table) (md : String → Option ℚ)
    (x y : ℚ) (funcs : List (Option String))
    (hwf : ∀ c ∈ funcs, ∃ f ys, c = some f ∧ lookupCol ideal.cols f = some ys ∧
      ∃ m, md f = some m)
    (hnone : ∀ c ∈ funcs, valPt ideal md x y c = none) :
    pointLoop ideal md x y funcs (none, ⊤) = some (none, ⊤) := by
  rw [pointLoop_eq_scan ideal md x y funcs (none, ⊤) hwf,
    scanMinLoop_eq_result, scanMinResult]
  have hf : (funcs.find? fun a =>
      decide (isScanMin (valPt ideal md x y) funcs ⊤ a)) = none := by
    rw [List.find?_eq_none]
    intro z hz hdz
    obtain ⟨p, hp, -, -⟩ := of_decide_eq_true hdz
    rw [hnone z hz] at hp
    exact Option.noConfusion hp
  rw [hf]

/-- C4 counterexample: one candidate is examined (`x = 0` is found in the
ideal table, deviation `|5 - 10| = 5`) but ineligible (`5 > sqrt(2) * 1`);
the output row records deviation `inf`, not the minimum examined deviation
`5`, refuting the claim that the deviation field holds that minimum. -/
theorem unassigned_deviation_counterexample :
    mapTestData
        ⟨Table.mk [] [], Table.mk [0] [("y1", [10])], [(0, 5)],
          [("y1", some "y1")], fun k => if k = "y1" then some 1 else none⟩ =
      some [⟨0, 5, ⊤, none⟩] ∧
    ((Table.mk [0] [("y1", [10])]).x.zip [10]).find? (fun p => p.1 = 0) =
      some (0, 10) ∧
    |(5 : ℚ) - 10| = 5 ∧
    (⊤ : WithTop ℚ) ≠ ((5 : ℚ) : WithTop ℚ) := by
  refine ⟨?_, by norm_num [List.zip], by norm_num, by simp⟩
  norm_num [mapTestData, mtdLoop, pointLoop, lookupCol, devWithin, List.dedup,
    List.pwFilter, List.zip]

/-- Witness for the amended C4 on the same fixture. -/
theorem unassigned_deviation_amended_witness :
    pointLoop (Table.mk [0] [("y1", [10])])
        (fun k => if k = "y1" then some 1 else none) 0 5 [some "y1"] (none, ⊤) =
      some (none, ⊤) :=
  unassigned_deviation_amended (Table.mk [0] [("y1", [10])])
    (fun k => if k = "y1" then some 1 else none) 0 5 [some "y1"]
    (by
      intro c hc
      rw [List.mem_singleton] at hc
      subst hc
      exact ⟨"y1", [10], rfl, rfl, 1, rfl⟩)
    (by
      intro c hc
      rw [List.mem_singleton] at hc
      subst hc
      norm_num [valPt, lookupCol, devWithin, List.zip])

/-! ### The write sequence performed by `compute_max_deviation` -/

theorem lastWrite_eq_none (k : String) :
    ∀ ws : List (String × ℚ), (∀ w ∈ ws, w.1 ≠ k) → lastWrite k ws = none := by
  intro ws
  induction ws with
  | nil => intro _; rfl
  | cons w t ih =>
    intro h
    rw [lastWrite, ih fun w' hw' => h w' (List.mem_cons_of_mem w hw')]
    show (if w.1 = k then some w.2 else none) = none
    exact if_neg (h w (List.mem_cons_self w t))

theorem writeAll_apply (k : String) :
    ∀ (ws : List (String × ℚ)) (g : String → Option ℚ),
      writeAll ws g k = (lastWrite k ws).elim (g k) some := by
  intro ws
  induction ws with
  | nil => intro g; rfl
  | cons w t ih =>
    intro g
    show writeAll t (updF g w.1 w.2) k = ((lastWrite k t).orElse fun _ =>
      if w.1 = k then some w.2 else none).elim (g k) some
    rw [ih]
    cases hlw : lastWrite k t with
    | some v => rfl
    | none =>
      show updF g w.1 w.2 k = (if w.1 = k then some w.2 else none).elim (g k) some
      rw [updF]
      by_cases hk : k = w.1
      · rw [if_pos hk, if_pos hk.symm]
        rfl
      · rw [if_neg hk, if_neg fun h => hk h.symm]
        rfl

theorem writeAll_writeAll (ws : List (String × ℚ)) (g : String → Option ℚ) :
    writeAll ws (writeAll ws g) = writeAll ws g := by
  funext k
  rw [writeAll_apply, writeAll_apply]
  cases lastWrite k ws with
  | some v => rfl
  | none => rfl

theorem exists_forall2 {α β : Type} (R : α → β → Prop) :
    ∀ l : List α, (∀ a ∈ l, ∃ b, R a b) → ∃ ws, List.Forall₂ R l ws := by
  intro l
  induction l with
  | nil => exact fun _ => ⟨[], List.Forall₂.nil⟩
  | cons a t ih =>
    intro h
    obtain ⟨b, hb⟩ := h a (List.mem_cons_self a t)
    obtain ⟨ws, hws⟩ := ih fun a' ha' => h a' (List.mem_cons_of_mem a ha')
    exact ⟨b :: ws, List.Forall₂.cons hb hws⟩

theorem forall2_mem_right {α β : Type} {R : α → β → Prop} :
    ∀ {l : List α} {ws : List β}, List.Forall₂ R l ws →
      ∀ w ∈ ws, ∃ a ∈ l, R a w := by
  intro l ws h
  induction h with
  | nil => intro w hw; exact absurd hw (List.not_mem_nil w)
  | cons hrel htail ih =>
    intro w hw
    rcases List.mem_cons.mp hw with rfl | hw'
    · exact ⟨_, List.mem_cons_self _ _, hrel⟩
    · obtain ⟨a, ha, hR⟩ := ih w hw'
      exact ⟨a, List.mem_cons_of_mem _ ha, hR⟩

theorem forall2_right_unique {α β : Type} {R : α → β → Prop}
    (hfun : ∀ a b b', R a b → R a b' → b = b') :
    ∀ {l : List α} {ws₁ ws₂ : List β},
      List.Forall₂ R l ws₁ → List.Forall₂ R l ws₂ → ws₁ = ws₂ := by
  intro l
  induction l with
  | nil =>
    intro ws₁ ws₂ h1 h2
    rw [List.forall₂_nil_left_iff] at h1 h2
    rw [h1, h2]
  | cons a t ih =>
    intro ws₁ ws₂ h1 h2
    rw [List.forall₂_cons_left_iff] at h1 h2
    obtain ⟨b1, u1, hr1, ht1, rfl⟩ := h1
    obtain ⟨b2, u2, hr2, ht2, rfl⟩ := h2
    rw [hfun a b1 b2 hr1 hr2, ih ht1 ht2]

theorem entryComputes_right_unique (train ideal : Table) (e : Entry)
    (w w' : String × ℚ) (h : entryComputes train ideal e w)
    (h' : entryComputes train ideal e w') : w = w' := by
  obtain ⟨ha1, ytr, yid, ds, hb1, hc1, hd1, he1⟩ := h
  obtain ⟨ha2, ytr', yid', ds', hb2, hc2, hd2, he2⟩ := h'
  have hf : w.1 = w'.1 := Option.some.inj (ha1.symm.trans ha2)
  have htr : ytr = ytr' := Option.some.inj (hb1.symm.trans hb2)
  rw [← hf] at hc2
  have hid : yid = yid' := Option.some.inj (hc1.symm.trans hc2)
  rw [← htr, ← hid] at hd2
  have hds : ds = ds' := Option.some.inj (hd1.symm.trans hd2)
  rw [← hds] at he2
  have hv : w.2 = w'.2 := Option.some.inj (he1.symm.trans he2)
  exact Prod.ext hf hv

theorem cmdLoop_true_iff (train ideal : Table) :
    ∀ (entries : List Entry) (sel : List (String × Option String))
      (md : String → Option ℚ),
      (cmdLoop train ideal entries sel md).1 = true ↔
        ∀ e ∈ entries, ∃ w, entryComputes train ideal e w := by
  intro entries
  induction entries with
  | nil => intro sel md; simp [cmdLoop]
  | cons e rest ih =>
    intro sel md
    rw [cmdLoop]
    cases hbf : e.2.1 with
    | none =>
      constructor
      · intro h; simp at h
      · intro h
        obtain ⟨w, hw, -⟩ := h e (List.mem_cons_self e rest)
        rw [hbf] at hw
        exact Option.noConfusion hw
    | some f =>
      cases h1 : lookupCol train.cols e.1 with
      | none =>
        simp only [h1]
        constructor
        · intro h; simp at h
        · intro h
          obtain ⟨w, -, ytr, yid, ds, hw2, -, -, -⟩ := h e (List.mem_cons_self e rest)
          rw [h1] at hw2
          exact Option.noConfusion hw2
      | some ytr =>
        simp only [h1]
        cases h2 : lookupCol ideal.cols f with
        | none =>
          simp only [h2]
          constructor
          · intro h; simp at h
          · intro h
            obtain ⟨w, hw1, ytr', yid, ds, -, hw3, -, -⟩ := h e (List.mem_cons_self e rest)
            rw [hbf] at hw1
            rw [← Option.some.inj hw1, h2] at hw3
            exact Option.noConfusion hw3
        | some yid =>
          simp only [h2]
          cases h3 : absDiffs ytr yid with
          | none =>
            simp only [h3]
            constructor
            · intro h; simp at h
            · intro h
              obtain ⟨w, hw1, ytr', yid', ds, hw2, hw3, hw4, -⟩ :=
                h e (List.mem_cons_self e rest)
              rw [hbf] at hw1
              rw [← Option.some.inj hw1, h2] at hw3
              rw [h1] at hw2
              rw [← Option.some.inj hw2, ← Option.some.inj hw3, h3] at hw4
              exact Option.noConfusion hw4
          | some ds =>
            simp only [h3]
            cases h4 : ds.max? with
            | none =>
              simp only [h4]
              constructor
              · intro h; simp at h
              · intro h
                obtain ⟨w, hw1, ytr', yid', ds', hw2, hw3, hw4, hw5⟩ :=
                  h e (List.mem_cons_self e rest)
                rw [hbf] at hw1
                rw [← Option.some.inj hw1, h2] at hw3
                rw [h1] at hw2
                rw [← Option.some.inj hw2, ← Option.some.inj hw3, h3] at hw4
                rw [← Option.some.inj hw4, h4] at hw5
                exact Option.noConfusion hw5
            | some v =>
              simp only [h4]
              rw [ih]
              constructor
              · intro h e' he'
                rcases List.mem_cons.mp he' with rfl | hmem
                · exact ⟨(f, v), hbf, ytr, yid, ds, h1, h2, h3, h4⟩
                · exact h e' hmem
              · intro h e' he'
                exact h e' (List.mem_cons_of_mem e he')

theorem cmdLoop_writes (train ideal : Table) :
    ∀ (entries : List Entry) (ws : List (String × ℚ))
      (sel : List (String × Option String)) (md : String → Option ℚ),
      List.Forall₂ (entryComputes train ideal) entries ws →
      (cmdLoop train ideal entries sel md).1 = true →
      (cmdLoop train ideal entries sel md).2.2 = writeAll ws md := by
  intro entries
  induction entries with
  | nil =>
    intro ws sel md hf _
    rw [List.forall₂_nil_left_iff] at hf
    rw [hf]
    rfl
  | cons e rest ih =>
    intro ws sel md hf hok
    rw [List.forall₂_cons_left_iff] at hf
    obtain ⟨w, ws', ⟨hw1, ytr, yid, ds, h1, h2, h3, h4⟩, htail, rfl⟩ := hf
    rw [cmdLoop] at hok ⊢
    simp only [hw1, h1, h2, h3, h4] at hok ⊢
    show (cmdLoop train ideal rest _ (updF md w.1 w.2)).2.2 = writeAll ws' (updF md w.1 w.2)
    exact ih ws' _ _ htail hok

theorem lastWrite_of_forall2 (train ideal : Table) :
    ∀ (entries : List Entry) (ws : List (String × ℚ)),
      List.Forall₂ (entryComputes train ideal) entries ws →
      (entries.map fun e => e.2.1).Nodup →
      ∀ e ∈ entries, ∀ f, e.2.1 = some f →
        ∃ v, lastWrite f ws = some v ∧ entryComputes train ideal e (f, v) := by
  intro entries
  induction entries with
  | nil => intro ws _ _ e he; exact absurd he (List.not_mem_nil e)
  | cons e0 rest ih =>
    intro ws hf hnd e he f hef
    rw [List.forall₂_cons_left_iff] at hf
    obtain ⟨w, ws', hrel, htail, rfl⟩ := hf
    rw [List.map_cons, List.nodup_cons] at hnd
    obtain ⟨hnotmem, hnd'⟩ := hnd
    rcases List.mem_cons.mp he with rfl | hmem
    · have hfw : f = w.1 := Option.some.inj (hef.symm.trans hrel.1)
      subst hfw
      have hnone : lastWrite w.1 ws' = none := by
        apply lastWrite_eq_none
        intro w' hw' hk
        obtain ⟨e', he', hrel'⟩ := forall2_mem_right htail w' hw'
        apply hnotmem
        rw [List.mem_map]
        exact ⟨e', he', by rw [hrel'.1, hk, hef]⟩
      refine ⟨w.2, ?_, hrel⟩
      rw [lastWrite, hnone]
      show (if w.1 = w.1 then some w.2 else none) = some w.2
      rw [if_pos rfl]
    · obtain ⟨v, hlv, hcomp⟩ := ih ws' htail hnd' e hmem f hef
      refine ⟨v, ?_, hcomp⟩
      rw [lastWrite, hlv]
      rfl

theorem computeMaxDeviation_some {s : SysState} {entries : List Entry}
    (h : findBestFit s.train s.ideal = some entries) :
    computeMaxDeviation s =
      ((cmdLoop s.train s.ideal entries s.selected s.maxDev).1,
        { s with
          selected := (cmdLoop s.train s.ideal entries s.selected s.maxDev).2.1,
          maxDev := (cmdLoop s.train s.ideal entries s.selected s.maxDev).2.2 }) := by
  rw [computeMaxDeviation, h]

/-- C5 (amended): after a successful `compute_max_deviation`, when the
selected ideal functions of the best-fit entries are pairwise distinct, every
`(training curve, selected ideal curve)` pair has
`max_deviation[ideal] = np.max(np.abs(train - ideal))` for exactly that pair
(in general the last pair processed for an ideal function wins); and the
operation is idempotent: running it again on the unchanged state succeeds and
leaves the `max_deviation` values identical. -/
theorem compute_max_deviation_amended :
    (∀ (s : SysState) (entries : List Entry),
      findBestFit s.train s.ideal = some entries →
      (computeMaxDeviation s).1 = true →
      (entries.map fun e => e.2.1).Nodup →
      ∀ e ∈ entries, ∀ f, e.2.1 = some f →
        ∃ v, (computeMaxDeviation s).2.maxDev f = some v ∧
          entryComputes s.train s.ideal e (f, v)) ∧
    ∀ s s' : SysState, computeMaxDeviation s = (true, s') →
      (computeMaxDeviation s').1 = true ∧
        (computeMaxDeviation s').2.maxDev = s'.maxDev := by
  constructor
  · intro s entries hfind hok hnd e he f hef
    have hok' : (cmdLoop s.train s.ideal entries s.selected s.maxDev).1 = true := by
      rw [computeMaxDeviation_some hfind] at hok
      exact hok
    obtain ⟨ws, hws⟩ := exists_forall2 (entryComputes s.train s.ideal) entries
      ((cmdLoop_true_iff s.train s.ideal entries s.selected s.maxDev).mp hok')
    have hmd := cmdLoop_writes s.train s.ideal entries ws s.selected s.maxDev hws hok'
    obtain ⟨v, hlv, hcomp⟩ :=
      lastWrite_of_forall2 s.train s.ideal entries ws hws hnd e he f hef
    refine ⟨v, ?_, hcomp⟩
    rw [computeMaxDeviation_some hfind]
    show (cmdLoop s.train s.ideal entries s.selected s.maxDev).2.2 f = some v
    rw [hmd, writeAll_apply, hlv]
    rfl
  · intro s s' h
    cases hfind : findBestFit s.train s.ideal with
    | none =>
      rw [computeMaxDeviation, hfind] at h
      have : False := by
        have h1 := congrArg Prod.fst h
        simp at h1
      exact absurd trivial fun _ => this
    | some entries =>
      rw [computeMaxDeviation_some hfind] at h
      have hok : (cmdLoop s.train s.ideal entries s.selected s.maxDev).1 = true :=
        congrArg Prod.fst h
      have hs' : s' =
          { s with
            selected := (cmdLoop s.train s.ideal entries s.selected s.maxDev).2.1,
            maxDev := (cmdLoop s.train s.ideal entries s.selected s.maxDev).2.2 } :=
        (congrArg Prod.snd h).symm
      have hall := (cmdLoop_true_iff s.train s.ideal entries s.selected s.maxDev).mp hok
      obtain ⟨ws, hws⟩ := exists_forall2 (entryComputes s.train s.ideal) entries hall
      have hmd1 := cmdLoop_writes s.train s.ideal entries ws s.selected s.maxDev hws hok
      have hfind2 : findBestFit s'.train s'.ideal = some entries := by
        rw [hs']; exact hfind
      have hok2 : (cmdLoop s.train s.ideal entries
          (cmdLoop s.train s.ideal entries s.selected s.maxDev).2.1
          (cmdLoop s.train s.ideal entries s.selected s.maxDev).2.2).1 = true :=
        (cmdLoop_true_iff s.train s.ideal entries _ _).mpr hall
      have hmd2 := cmdLoop_writes s.train s.ideal entries ws
        (cmdLoop s.train s.ideal entries s.selected s.maxDev).2.1
        (cmdLoop s.train s.ideal entries s.selected s.maxDev).2.2 hws hok2
      constructor
      · rw [computeMaxDeviation_some hfind2, hs']
        exact hok2
      · rw [computeMaxDeviation_some hfind2, hs']
        show (cmdLoop s.train s.ideal entries
            (cmdLoop s.train s.ideal entries s.selected s.maxDev).2.1
            (cmdLoop s.train s.ideal entries s.selected s.maxDev).2.2).2.2 =
          (cmdLoop s.train s.ideal entries s.selected s.maxDev).2.2
        rw [hmd2, hmd1, writeAll_writeAll]

/-- C5 counterexample: training curves `y1 = [0,0]` and `y2 = [1,1]` both
select the single ideal curve `y1 = [0,0]`.  The pair `(y1, y1)` has maximal
absolute deviation `0`, but after `compute_max_deviation` the stored value is
`max_deviation[y1] = 1` (the last pair processed wins), so the claimed
per-pair equation fails for the pair `(y1, y1)`. -/
theorem compute_max_deviation_counterexample :
    findBestFit (Table.mk [0, 1] [("y1", [0, 0]), ("y2", [1, 1])])
        (Table.mk [0, 1] [("y1", [0, 0])]) =
      some [("y1", (some "y1", ((0 : ℚ) : WithTop ℚ))),
        ("y2", (some "y1", ((1 : ℚ) : WithTop ℚ)))] ∧
    (computeMaxDeviation
      ⟨Table.mk [0, 1] [("y1", [0, 0]), ("y2", [1, 1])],
        Table.mk [0, 1] [("y1", [0, 0])], [], [], fun _ => none⟩).1 = true ∧
    (computeMaxDeviation
      ⟨Table.mk [0, 1] [("y1", [0, 0]), ("y2", [1, 1])],
        Table.mk [0, 1] [("y1", [0, 0])], [], [], fun _ => none⟩).2.maxDev "y1" =
      some 1 ∧
    absDiffs [0, 0] [0, 0] = some [0, 0] ∧ ([0, 0] : List ℚ).max? = some 0 ∧
    (0 : ℚ) ≠ 1 := by
  have e1 : entryFor [("y1", [0, 0])] ("y1", [0, 0]) =
      (("y1", (some "y1", ((0 : ℚ) : WithTop ℚ))) : Entry) := by
    norm_num [entryFor, bestMatchFor, bestLoop, sse, List.zip, divRound4, round4,
      roundHalfEven, WithTop.coe_lt_top, WithTop.map_coe]
  have e2 : entryFor [("y1", [0, 0])] ("y2", [1, 1]) =
      (("y2", (some "y1", ((1 : ℚ) : WithTop ℚ))) : Entry) := by
    norm_num [entryFor, bestMatchFor, bestLoop, sse, List.zip, -WithTop.coe_ofNat,
      WithTop.coe_lt_top, divRound4, WithTop.map_coe]
    norm_num [round4, roundHalfEven, Int.fract]
  have h1 : findBestFit (Table.mk [0, 1] [("y1", [0, 0]), ("y2", [1, 1])])
      (Table.mk [0, 1] [("y1", [0, 0])]) =
      some [("y1", (some "y1", ((0 : ℚ) : WithTop ℚ))),
        ("y2", (some "y1", ((1 : ℚ) : WithTop ℚ)))] := by
    rw [findBestFit, if_neg (by decide)]
    show some ((List.insertionSort entryLE
      [entryFor [("y1", [0, 0])] ("y1", [0, 0]),
        entryFor [("y1", [0, 0])] ("y2", [1, 1])]).take 4) = _
    rw [e1, e2]
    rw [List.insertionSort, List.insertionSort, List.insertionSort,
      List.orderedInsert, List.orderedInsert]
    rw [if_pos (show entryLE ("y1", (some "y1", ((0 : ℚ) : WithTop ℚ)))
        ("y2", (some "y1", ((1 : ℚ) : WithTop ℚ))) by
      show ((0 : ℚ) : WithTop ℚ) ≤ ((1 : ℚ) : WithTop ℚ)
      exact_mod_cast (by norm_num : (0 : ℚ) ≤ 1))]
    rfl
  refine ⟨h1, ?_, ?_, by norm_num [absDiffs, List.zip], by norm_num [List.max?],
    by norm_num⟩
  · rw [computeMaxDeviation_some
      (s := ⟨Table.mk [0, 1] [("y1", [0, 0]), ("y2", [1, 1])],
        Table.mk [0, 1] [("y1", [0, 0])], [], [], fun _ => none⟩) h1]
    rw [cmdLoop_true_iff]
    intro e he
    rcases List.mem_cons.mp he with rfl | he'
    · exact ⟨("y1", 0), rfl, [0, 0], [0, 0], [0, 0],
        by norm_num [lookupCol, List.find?],
        by norm_num [lookupCol, List.find?],
        by norm_num [absDiffs, List.zip], by norm_num [List.max?]⟩
    rcases List.mem_singleton.mp he' with rfl
    exact ⟨("y1", 1), rfl, [1, 1], [0, 0], [1, 1],
      by norm_num [lookupCol, List.find?, (show ¬ ("y1" : String) = "y2" by decide)],
      by norm_num [lookupCol, List.find?],
      by norm_num [absDiffs, List.zip], by norm_num [List.max?]⟩
  · rw [computeMaxDeviation_some
      (s := ⟨Table.mk [0, 1] [("y1", [0, 0]), ("y2", [1, 1])],
        Table.mk [0, 1] [("y1", [0, 0])], [], [], fun _ => none⟩) h1]
    norm_num [cmdLoop, dictInsert, lookupCol, absDiffs, updF, List.max?, List.zip,
      List.find?, (show ¬ ("y1" : String) = "y2" by decide),
      (show ¬ ("y2" : String) = "y1" by decide)]

/-- Witness for the amended C5: a distinct-selection fixture for the
per-pair clause and an idempotence instance. -/
theorem compute_max_deviation_amended_witness :
    (∃ v, (computeMaxDeviation
        ⟨Table.mk [0, 1, 2] [("y1", [0, 1, 2])],
          Table.mk [0, 1, 2] [("y1", [0, 1, 2]), ("y2", [0, 2, 4])],
          [], [], fun _ => none⟩).2.maxDev "y1" = some v ∧
      entryComputes
        (⟨Table.mk [0, 1, 2] [("y1", [0, 1, 2])],
          Table.mk [0, 1, 2] [("y1", [0, 1, 2]), ("y2", [0, 2, 4])],
          [], [], fun _ => none⟩ : SysState).train
        (⟨Table.mk [0, 1, 2] [("y1", [0, 1, 2])],
          Table.mk [0, 1, 2] [("y1", [0, 1, 2]), ("y2", [0, 2, 4])],
          [], [], fun _ => none⟩ : SysState).ideal
        ("y1", (some "y1", ((0 : ℚ) : WithTop ℚ))) ("y1", v)) ∧
    ((computeMaxDeviation
        ⟨Table.mk [] [], Table.mk [] [], [], [], fun _ => none⟩).1 = true ∧
      (computeMaxDeviation
        ⟨Table.mk [] [], Table.mk [] [], [], [], fun _ => none⟩).2.maxDev =
        (⟨Table.mk [] [], Table.mk [] [], [], [], fun _ => none⟩ : SysState).maxDev) := by
  have hfind : findBestFit
      (⟨Table.mk [0, 1, 2] [("y1", [0, 1, 2])],
        Table.mk [0, 1, 2] [("y1", [0, 1, 2]), ("y2", [0, 2, 4])],
        [], [], fun _ => none⟩ : SysState).train
      (⟨Table.mk [0, 1, 2] [("y1", [0, 1, 2])],
        Table.mk [0, 1, 2] [("y1", [0, 1, 2]), ("y2", [0, 2, 4])],
        [], [], fun _ => none⟩ : SysState).ideal =
      some [("y1", (some "y1", ((0 : ℚ) : WithTop ℚ)))] := by
    norm_num [findBestFit, entryFor, bestMatchFor, bestLoop, divRound4, round4,
      roundHalfEven, sse, List.zip, List.insertionSort, List.orderedInsert,
      WithTop.coe_lt_coe, WithTop.coe_lt_top, WithTop.map_coe]
    simp +decide
  have hok : (computeMaxDeviation
      ⟨Table.mk [0, 1, 2] [("y1", [0, 1, 2])],
        Table.mk [0, 1, 2] [("y1", [0, 1, 2]), ("y2", [0, 2, 4])],
        [], [], fun _ => none⟩).1 = true := by
    rw [computeMaxDeviation_some hfind, cmdLoop_true_iff]
    intro e he
    rcases List.mem_singleton.mp he with rfl
    exact ⟨("y1", 0), rfl, [0, 1, 2], [0, 1, 2], [0, 0, 0],
      by norm_num [lookupCol, List.find?],
      by norm_num [lookupCol, List.find?],
      by norm_num [absDiffs, List.zip], by norm_num [List.max?]⟩
  refine ⟨?_, compute_max_deviation_amended.2
    ⟨Table.mk [] [], Table.mk [] [], [], [], fun _ => none⟩
    ⟨Table.mk [] [], Table.mk [] [], [], [], fun _ => none⟩ rfl⟩
  exact compute_max_deviation_amended.1
    ⟨Table.mk [0, 1, 2] [("y1", [0, 1, 2])],
      Table.mk [0, 1, 2] [("y1", [0, 1, 2]), ("y2", [0, 2, 4])],
      [], [], fun _ => none⟩
    [("y1", (some "y1", ((0 : ℚ) : WithTop ℚ)))]
    hfind hok (by simp)
    ("y1", (some "y1", ((0 : ℚ) : WithTop ℚ))) (List.mem_singleton.mpr rfl)
    "y1" rfl
